import Mathlib

/-!
Verification development for the cachejs caching core.

The definitions below are a shallow embedding of the current revision of the
caching engine (`src/cache.js`, identical to the bundled `dist/index.js`),
of the in-repository one-shot trigger (`lib/trigger.js`), and of the
serialized work executor (`execute` + the PLock FIFO queue).

Modelling conventions:
* Virtual paths are lists of name segments (`VPath`); `path.join root p`
  is rendered by the pair `FullPath` of a root tag and the segments, and
  `basename`/`dirname` are `getLast`/`dropLast` on segments.
* `fs.lstat`, `fs.readdir`, `fs.copyFile`, `fs.unlink`, `fs.utimes` act on
  two association lists `sourceFs`/`cacheFs` from virtual path to `Stats`
  (regular files only) plus a list `cacheDirs` of directories that exist
  under the cache root; the only lstat failure modelled is ENOENT, matching
  the `istanbul ignore` guards in the source.
* The JavaScript `Map` (insertion ordered, `delete` + `set` moves an entry
  to the end, `set` on a present key updates in place) is rendered by an
  association list with head = oldest entry.
* JavaScript numbers in the read-threshold test `(preloadRead * size) / 100`
  are rendered exactly in `ℚ`.
* `Date.now()` is passed in as an explicit `now : Int` (milliseconds); the
  source re-reads the clock once per scanned file inside `clean`.
-/

abbrev VPath := List String

/-- Result of `lstat`: the fields of `fs.Stats` the core consumes. -/
structure Stats where
  size : Nat
  atimeMs : Int
  mtimeMs : Int
deriving DecidableEq, Repr

/-- Which physical root a resolved path lives under. -/
inductive Root
  | source
  | cache
deriving DecidableEq, Repr

/-- A resolved physical path: `join(root, virtualPath)`. -/
structure FullPath where
  root : Root
  rel : VPath
deriving DecidableEq, Repr

/-- The record built by `locate` and cached in the MRU map. -/
structure PathRec where
  path : VPath
  fullpath : FullPath
  cached : Bool
  cacheable : Bool
  stats : Stats
deriving DecidableEq, Repr

/-- Modelled from the spec: the state of the `timed-trigger` latch used by
`src/cache.js` (the package itself is not part of this repository).  Per
spec section 4.C it is a single-shot latch `Armed → Fired(reason)` or
`Armed → Cancelled`, `armed` carrying the pending `(duration, reason)`
timer when one was scheduled with `fireAfter`. -/
inductive TriggerState
  | armed (timer : Option (Nat × String))
  | fired (reason : String)
  | cancelled
deriving DecidableEq, Repr

namespace TimedTrigger

/-- Modelled from the spec: `fire(reason)` transitions `Armed → Fired(reason)`
(clearing any pending timer); it is a no-op on a terminal state. -/
def fire (reason : String) : TriggerState → TriggerState
  | .armed _ => .fired reason
  | s => s

/-- Modelled from the spec: `fireAfter(duration, reason)` schedules a timer
while armed; no-op on a terminal state. -/
def fireAfter (duration : Nat) (reason : String) : TriggerState → TriggerState
  | .armed _ => .armed (some (duration, reason))
  | s => s

/-- Modelled from the spec: `cancel()` (named `clear` at the call site in
`onClose`) transitions `Armed → Cancelled`; no-op on a terminal state. -/
def cancel : TriggerState → TriggerState
  | .armed _ => .cancelled
  | s => s

/-- Modelled from the spec: expiry of the pending timer fires with the
stored default reason. -/
def expire : TriggerState → TriggerState
  | .armed (some (_, reason)) => .fired reason
  | s => s

end TimedTrigger

/-- Per-descriptor record kept in `openFiles` (`onOpen` in `src/cache.js`).
`size` is `none` until the asynchronous `getFileSize` work item stores it. -/
structure OpenRec where
  path : VPath
  trigger : TriggerState
  read : Nat
  size : Option Nat
deriving DecidableEq, Repr

/-- IO failures the embedding distinguishes. -/
inductive Err
  | locateFailed (p : VPath)
  | ioError (p : VPath)
deriving DecidableEq, Repr

/-- The named events emitted by the `Cache` emitter. -/
inductive Event
  | hit (p : VPath)
  | miss (p : VPath)
  | read (p : VPath)
  | request (reason : String) (p : VPath)
  | cache (p : VPath)
  | uncache (p : VPath)
  | error (e : Err)
deriving DecidableEq, Repr

/-- The mutable state owned by one `Cache` instance plus the two file trees. -/
structure CState where
  sourceFs : List (VPath × Stats)
  cacheFs : List (VPath × Stats)
  cacheDirs : List VPath
  mruFiles : List (VPath × PathRec)
  openFiles : List (Nat × OpenRec)
deriving DecidableEq, Repr

/-- The construction-time options consumed by `getPrivate`. -/
structure Config where
  preloadSiblings : Nat
  preloadFilter : String → Bool
  preloadRead : Nat
  preloadOpen : Nat
  mruSize : Nat

section MapModel

variable {κ ν : Type} [DecidableEq κ]

/-- `Map.get`: first entry with the key (at most one in a real `Map`). -/
def mapGet : List (κ × ν) → κ → Option ν
  | [], _ => none
  | e :: rest, k => if e.1 = k then some e.2 else mapGet rest k

/-- `Map.set`: update in place when the key is present, else append. -/
def mapSet : List (κ × ν) → κ → ν → List (κ × ν)
  | [], k, v => [(k, v)]
  | e :: rest, k, v => if e.1 = k then (k, v) :: rest else e :: mapSet rest k v

/-- `Map.delete`: remove the entry for the key (all of them, which is the
same thing under the no-duplicate-keys invariant of a real `Map`). -/
def mapDelete : List (κ × ν) → κ → List (κ × ν)
  | [], _ => []
  | e :: rest, k => if e.1 = k then mapDelete rest k else e :: mapDelete rest k

/-- In-place mutation of the value object stored under a key (JS object
aliasing: the entry keeps its position). -/
def mapUpdate : List (κ × ν) → κ → (ν → ν) → List (κ × ν)
  | [], _, _ => []
  | e :: rest, k, f => if e.1 = k then (e.1, f e.2) :: rest else e :: mapUpdate rest k f

end MapModel

/-- `path.basename` on segment paths. -/
def jsBasename (p : VPath) : String := p.getLastD ""

/-- Lexicographic comparison of character sequences by code point — the
order `Array.prototype.sort()`'s default comparator gives on the BMP
strings in scope. -/
def lexLe : List Char → List Char → Bool
  | [], _ => true
  | _ :: _, [] => false
  | x :: xs, y :: ys =>
      if x.toNat < y.toNat then true
      else if x.toNat = y.toNat then lexLe xs ys
      else false

/-- The default string comparator of `Array.prototype.sort()`. -/
def nameLe (a b : String) : Bool := lexLe a.data b.data

/-- One insertion step of the sort used to model `Array.prototype.sort()`. -/
def insertName (x : String) : List String → List String
  | [] => [x]
  | y :: ys => if nameLe x y then x :: y :: ys else y :: insertName x ys

/-- `Array.prototype.sort()` on readdir names (default lexicographic
comparator; readdir names are pairwise distinct so any correct sort
produces the same list). -/
def sortNames : List String → List String
  | [] => []
  | x :: xs => insertName x (sortNames xs)

/-- `Array.prototype.indexOf`, `none` standing for `-1`. -/
def listIndexOf : List String → String → Option Nat
  | [], _ => none
  | y :: ys, x => if y = x then some 0 else (listIndexOf ys x).map (· + 1)

/-- `Array.prototype.slice(start, stop)` with the ECMAScript clamping of
possibly negative indices. -/
def jsSlice {α : Type} (l : List α) (start stop : Int) : List α :=
  let L : Int := l.length
  let s : Int := if start < 0 then max (L + start) 0 else min start L
  let e : Int := if stop < 0 then max (L + stop) 0 else min stop L
  (l.drop s.toNat).take (e - s).toNat

/-- `fs.readdir` on the modelled tree: the names of the regular files whose
parent is `dir`.  (Subdirectory names are omitted; the caller filters the
listing through the preload filter, which matches file names.) -/
def readdirNames (fs : List (VPath × Stats)) (dir : VPath) : List String :=
  fs.filterMap fun e => if e.1.dropLast = dir then e.1.getLast? else none

/-- Recursion worker for `mkdirs`; the fuel (first argument) bounds the
recursion depth and is always instantiated with the path length, which the
upward recursion never exceeds. -/
def mkdirsAux (dirs : List VPath) : Nat → VPath → List VPath
  | _, [] => dirs
  | 0, _ :: _ => dirs
  | fuel + 1, d =>
      if d ∈ dirs then dirs
      else mkdirsAux dirs fuel d.dropLast ++ [d]

/-- `mkdir -p` behaviour of `mkdirs` in `src/cache.js`: ensure `d` and all
its ancestors exist (EEXIST is swallowed, ENOENT recurses to the parent
first).  `[]` is the cache root itself, which always exists. -/
def mkdirs (dirs : List VPath) (d : VPath) : List VPath :=
  mkdirsAux dirs d.length d

/-- Does directory `d` have a direct child (a file or a subdirectory)?
This is what makes `rmdir` fail with ENOTEMPTY. -/
def hasChild (cacheFs : List (VPath × Stats)) (dirs : List VPath) (d : VPath) : Bool :=
  (cacheFs.any fun e => decide (e.1.dropLast = d) && decide (e.1 ≠ [])) ||
  (dirs.any fun d2 => decide (d2.dropLast = d) && decide (d2 ≠ []))

/-- Recursion worker for `rmdirs`; the fuel (first argument) bounds the
recursion depth and is always instantiated with the path length, which the
upward walk never exceeds. -/
def rmdirsAux (cacheFs : List (VPath × Stats)) (dirs : List VPath) :
    Nat → VPath → List VPath × Option Err
  | _, [] => (dirs, none)
  | 0, _ :: _ => (dirs, none)
  | fuel + 1, d =>
      if d ∈ dirs then
        if hasChild cacheFs dirs d then (dirs, none)
        else rmdirsAux cacheFs (dirs.filter fun d2 => decide (d2 ≠ d)) fuel d.dropLast
      else (dirs, some (.ioError d))

/-- `rmdirs` from `src/cache.js`: walk upward removing empty directories,
stopping at the cache root or on ENOTEMPTY (swallowed); `rmdir` of a
missing directory raises ENOENT, which propagates. -/
def rmdirs (cacheFs : List (VPath × Stats)) (dirs : List VPath) (d : VPath) :
    List VPath × Option Err :=
  rmdirsAux cacheFs dirs d.length d

/-- Drop the oldest entry when the MRU has grown past `mruSize`
(`mruFiles.delete(mruFiles.keys().next().value)`). -/
def mruEvict (m : List (VPath × PathRec)) (mruSize : Nat) : List (VPath × PathRec) :=
  if m.length > mruSize then
    match m with
    | [] => []
    | _ :: t => t
  else m

/-- `Cache.locate` from `src/cache.js`: consult the MRU (a hit is moved to
the MRU end), else lstat the cache location, falling back to the source on
ENOENT; the built record is inserted at the MRU end with bounded eviction.
A locate that fails (ENOENT at both roots) is not inserted. -/
def locate (cfg : Config) (st : CState) (path : VPath) : CState × Except Err PathRec :=
  match mapGet st.mruFiles path with
  | some rcd =>
      ({ st with mruFiles := mapSet (mapDelete st.mruFiles path) path rcd }, .ok rcd)
  | none =>
      let cacheable := cfg.preloadFilter (jsBasename path)
      match mapGet st.cacheFs path with
      | some stats =>
          let rcd : PathRec := ⟨path, ⟨.cache, path⟩, true, cacheable, stats⟩
          ({ st with mruFiles := mruEvict (mapSet st.mruFiles path rcd) cfg.mruSize }, .ok rcd)
      | none =>
          match mapGet st.sourceFs path with
          | some stats =>
              let rcd : PathRec := ⟨path, ⟨.source, path⟩, false, cacheable, stats⟩
              ({ st with mruFiles := mruEvict (mapSet st.mruFiles path rcd) cfg.mruSize }, .ok rcd)
          | none => (st, .error (.locateFailed path))

/-- The sorted, filter-matching listing of `path`'s source parent directory
(`files.sort().filter(f => preloadFilter.test(f))` in `getSiblings`). -/
def siblingListing (cfg : Config) (st : CState) (path : VPath) : List String :=
  (sortNames (readdirNames st.sourceFs path.dropLast)).filter cfg.preloadFilter

/-- `getSiblings` from `src/cache.js`: index of `basename(path)` in the
listing (`-1` when absent), then `slice(ix, ix + preloadSiblings + 1)`
mapped back under the parent directory. -/
def getSiblings (cfg : Config) (st : CState) (path : VPath) : List VPath :=
  let files := siblingListing cfg st path
  let ix : Int := match listIndexOf files (jsBasename path) with
    | some i => (i : Int)
    | none => -1
  (jsSlice files ix (ix + (cfg.preloadSiblings : Int) + 1)).map
    fun f => path.dropLast ++ [f]

/-- `cacheFile` from `src/cache.js`: locate; if already cached return
`false`; otherwise make the destination directories, copy the file, mirror
the source's timestamps onto the copy, drop any MRU entry for the path and
return `true`.  A copy from a vanished source file fails with an IO error. -/
def cacheFile (cfg : Config) (st : CState) (path : VPath) : CState × Except Err Bool :=
  match locate cfg st path with
  | (st1, .error e) => (st1, .error e)
  | (st1, .ok rcd) =>
      if rcd.cached then (st1, .ok false)
      else
        let st2 := { st1 with cacheDirs := mkdirs st1.cacheDirs path.dropLast }
        match mapGet st2.sourceFs path with
        | none => (st2, .error (.ioError path))
        | some stats =>
            let st3 := { st2 with cacheFs := mapSet st2.cacheFs path stats }
            ({ st3 with mruFiles := mapDelete st3.mruFiles path }, .ok true)

/-- The per-sibling loop of `requestCache`: cache each sibling in order,
emitting `cache(sib)` for each newly cached one; an exception aborts the
remainder of the loop and propagates. -/
def cacheSiblings (cfg : Config) : List VPath → CState → CState × List Event × Option Err
  | [], st => (st, [], none)
  | p :: rest, st =>
      match cacheFile cfg st p with
      | (st1, .error e) => (st1, [], some e)
      | (st1, .ok newlyCached) =>
          let evs := if newlyCached then [Event.cache p] else []
          let (st2, evs2, e?) := cacheSiblings cfg rest st1
          (st2, evs ++ evs2, e?)

/-- `requestCache` from `src/cache.js`: emit `request`, compute the
siblings, cache them in order. -/
def requestCache (cfg : Config) (st : CState) (reason : String) (path : VPath) :
    CState × List Event × Option Err :=
  let sibs := getSiblings cfg st path
  let (st1, evs, e?) := cacheSiblings cfg sibs st
  (st1, Event.request reason path :: evs, e?)

/-- The first half of `uncacheFile`: locate the path and mutate the record
returned (the very object stored in the MRU) to point at the source with
`cached = false` — this happens before the unlink. -/
def uncacheMid (cfg : Config) (st : CState) (path : VPath) : CState × Except Err Unit :=
  match locate cfg st path with
  | (st1, .error e) => (st1, .error e)
  | (st1, .ok _) =>
      ({ st1 with
          mruFiles := mapUpdate st1.mruFiles path fun r =>
            { r with cached := false, fullpath := ⟨.source, path⟩ } }, .ok ())

/-- `uncacheFile` from `src/cache.js`: adjust the MRU record, unlink the
cache copy, then remove now-empty parent directories. -/
def uncacheFile (cfg : Config) (st : CState) (path : VPath) : CState × Option Err :=
  match uncacheMid cfg st path with
  | (st1, .error e) => (st1, some e)
  | (st1, .ok _) =>
      let st2 := { st1 with cacheFs := mapDelete st1.cacheFs path }
      let (dirs2, e?) := rmdirs st2.cacheFs st2.cacheDirs path.dropLast
      ({ st2 with cacheDirs := dirs2 }, e?)

/-- Should `clean` evict this walked entry?  The guard from `Cache.clean`:
basename not matched by `cleanIgnore` and atime strictly older than
`now − cleanAfter` seconds. -/
def cleanEvicts (cleanIgnore : String → Bool) (cleanAfter : Nat) (now : Int)
    (e : VPath × Stats) : Bool :=
  !cleanIgnore (jsBasename e.1) && decide (e.2.atimeMs < now - (cleanAfter : Int) * 1000)

/-- The `for await` loop of `Cache.clean` over the file entries yielded by
`filescan(cacheDir)` (directories are skipped by the `stats.isFile()`
guard, so only file entries appear here); after a complete scan the MRU is
cleared.  An exception aborts the loop and propagates. -/
def cleanLoop (cfg : Config) (cleanIgnore : String → Bool) (cleanAfter : Nat) (now : Int) :
    List (VPath × Stats) → CState → CState × List Event × Option Err
  | [], st => ({ st with mruFiles := [] }, [], none)
  | e :: rest, st =>
      if cleanEvicts cleanIgnore cleanAfter now e then
        match uncacheFile cfg st e.1 with
        | (st1, some err) => (st1, [], some err)
        | (st1, none) =>
            let (st2, evs, e?) := cleanLoop cfg cleanIgnore cleanAfter now rest st1
            (st2, Event.uncache e.1 :: evs, e?)
      else cleanLoop cfg cleanIgnore cleanAfter now rest st

/-- `Cache.clean` from `src/cache.js`: scan the cache tree (the walk yields
the cache file entries in order) and run the eviction loop. -/
def clean (cfg : Config) (st : CState) (cleanIgnore : String → Bool) (cleanAfter : Nat)
    (now : Int) : CState × List Event × Option Err :=
  cleanLoop cfg cleanIgnore cleanAfter now st.cacheFs st

/-- `Cache.onOpen` from `src/cache.js`: a path failing the preload filter
just emits `read`; otherwise locate (emitting `hit`/`miss`), insert a fresh
record with an armed trigger scheduled to fire with reason `time` after
`preloadOpen` ms.  (The trigger continuation and the `getFileSize` fetch
are enqueued on the serialized executor, modelled separately.) -/
def onOpen (cfg : Config) (st : CState) (fd : Nat) (path : VPath) :
    CState × List Event × Option Err :=
  if cfg.preloadFilter (jsBasename path) then
    match locate cfg st path with
    | (st1, .error e) => (st1, [], some e)
    | (st1, .ok rcd) =>
        let orec : OpenRec :=
          { path := path
            trigger := .armed (some (cfg.preloadOpen, "time"))
            read := 0
            size := none }
        ({ st1 with openFiles := mapSet st1.openFiles fd orec },
          [if rcd.cached then Event.hit path else Event.miss path], none)
  else (st, [Event.read path], none)

/-- The read-volume test of `onRead`: `rec.read > (preloadRead * rec.size) / 100`
with JavaScript number arithmetic rendered exactly in `ℚ`; false while the
size is still unknown (`typeof rec.size === 'number'`). -/
def readHot (cfg : Config) (r : OpenRec) : Bool :=
  match r.size with
  | some n => decide ((r.read : ℚ) > (cfg.preloadRead : ℚ) * (n : ℚ) / 100)
  | none => false

/-- `Cache.onRead` from `src/cache.js`: add the bytes to the record (no
record, no effect), then fire the trigger with reason `read` when the
volume test passes. -/
def onRead (cfg : Config) (st : CState) (fd : Nat) (bytes : Nat) : CState :=
  match mapGet st.openFiles fd with
  | none => st
  | some rcd =>
      let rcd1 := { rcd with read := rcd.read + bytes }
      let rcd2 :=
        if readHot cfg rcd1 then { rcd1 with trigger := TimedTrigger.fire "read" rcd1.trigger }
        else rcd1
      { st with openFiles := mapSet st.openFiles fd rcd2 }

/-- `Cache.onClose` from `src/cache.js`: cancel the trigger and drop the
record (no record, no effect). -/
def onClose (st : CState) (fd : Nat) : CState :=
  match mapGet st.openFiles fd with
  | none => st
  | some _ => { st with openFiles := mapDelete st.openFiles fd }

/-- `getFileSize` from `src/cache.js`: locate the record's path and store
the size into the record.  The closure captures the record object; the
store is observable only while `openFiles` still maps the fd to it. -/
def getFileSize (cfg : Config) (st : CState) (fd : Nat) (path : VPath) :
    CState × Option Err :=
  match locate cfg st path with
  | (st1, .error e) => (st1, some e)
  | (st1, .ok rcd) =>
      match mapGet st1.openFiles fd with
      | none => (st1, none)
      | some orec =>
          ({ st1 with openFiles := mapSet st1.openFiles fd { orec with size := some rcd.stats.size } },
            none)

/-- A queued unit of background work: it transforms the state, emits events
and may finish with an uncaught exception. -/
def WorkItem : Type := CState → CState × List Event × Option Err

/-- `execute` from `src/cache.js`: run one work item under the PLock; an
exception is caught at this boundary and emitted as a single `error`
event — nothing propagates to the enqueuer. -/
def execute (it : WorkItem) (st : CState) : CState × List Event :=
  match it st with
  | (st1, evs, some e) => (st1, evs ++ [Event.error e])
  | (st1, evs, none) => (st1, evs)

/-- The serialized FIFO executor behind the PLock: items run strictly in
order, each through `execute`. -/
def runQueue : List WorkItem → CState → CState × List Event
  | [], st => (st, [])
  | it :: rest, st =>
      let (st1, evs) := execute it st
      let (st2, evs2) := runQueue rest st1
      (st2, evs ++ evs2)

/-- The state of the one-shot trigger of `lib/trigger.js`: the promise's
resolution (kept forever once set) and the pending `fireTimeout`. -/
structure LTrigger where
  resolved : Option String
  fireTimeout : Option (Nat × String)
deriving DecidableEq, Repr

namespace LTrigger

/-- `trigger()` from `lib/trigger.js`: fresh unresolved promise, no timer. -/
def new : LTrigger := ⟨none, none⟩

/-- `promise.cancel()` from `lib/trigger.js`: clear the pending timer (and
nothing else). -/
def cancel (t : LTrigger) : LTrigger := { t with fireTimeout := none }

/-- The promise's `resolve`: a no-op once the promise is already resolved. -/
def resolve (t : LTrigger) (v : String) : LTrigger :=
  match t.resolved with
  | some _ => t
  | none => { t with resolved := some v }

/-- `promise.fire(value)` from `lib/trigger.js`: `cancel()` then resolve. -/
def fire (t : LTrigger) (v : String) : LTrigger := (t.cancel).resolve v

/-- `promise.fireAfter(duration, value)` from `lib/trigger.js`: `cancel()`
then schedule a fresh timer. -/
def fireAfter (t : LTrigger) (duration : Nat) (v : String) : LTrigger :=
  { t.cancel with fireTimeout := some (duration, v) }

/-- Expiry of the scheduled timeout: clear it and `fire` with its value. -/
def expire (t : LTrigger) : LTrigger :=
  match t.fireTimeout with
  | some (_, v) => ({ t with fireTimeout := none }).fire v
  | none => t

end LTrigger

/-! ### Helper lemmas about the `Map` model -/

section MapLemmas

variable {κ ν : Type} [DecidableEq κ]

theorem mapGet_mem {m : List (κ × ν)} {k : κ} {v : ν} (h : mapGet m k = some v) :
    (k, v) ∈ m := by
  induction m with
  | nil => simp [mapGet] at h
  | cons e rest ih =>
      obtain ⟨k0, v0⟩ := e
      by_cases hk : k0 = k
      · subst hk
        simp [mapGet] at h
        simp [h]
      · simp [mapGet, hk] at h
        exact List.mem_cons_of_mem _ (ih h)

theorem mapGet_set_self (m : List (κ × ν)) (k : κ) (v : ν) :
    mapGet (mapSet m k v) k = some v := by
  induction m with
  | nil => simp [mapGet, mapSet]
  | cons e rest ih =>
      obtain ⟨k0, v0⟩ := e
      by_cases hk : k0 = k
      · subst hk
        simp [mapSet, mapGet]
      · simp [mapSet, hk, mapGet, ih]

theorem mapGet_set_ne (m : List (κ × ν)) {k k' : κ} (v : ν) (h : k' ≠ k) :
    mapGet (mapSet m k v) k' = mapGet m k' := by
  induction m with
  | nil => simp [mapGet, mapSet, Ne.symm h]
  | cons e rest ih =>
      obtain ⟨k0, v0⟩ := e
      by_cases hk : k0 = k
      · subst hk
        simp [mapSet, mapGet, Ne.symm h]
      · simp only [mapSet, hk, if_false, mapGet]
        by_cases hk' : k0 = k'
        · simp [hk']
        · simp [hk', ih]

theorem mapGet_delete_self (m : List (κ × ν)) (k : κ) :
    mapGet (mapDelete m k) k = none := by
  induction m with
  | nil => simp [mapGet, mapDelete]
  | cons e rest ih =>
      obtain ⟨k0, v0⟩ := e
      by_cases hk : k0 = k
      · simp [mapDelete, hk, ih]
      · simp [mapDelete, hk, mapGet, ih]

theorem mapGet_delete_ne (m : List (κ × ν)) {k k' : κ} (h : k' ≠ k) :
    mapGet (mapDelete m k) k' = mapGet m k' := by
  induction m with
  | nil => simp [mapDelete]
  | cons e rest ih =>
      obtain ⟨k0, v0⟩ := e
      by_cases hk : k0 = k
      · subst hk
        simp [mapDelete, mapGet, Ne.symm h, ih]
      · simp only [mapDelete, hk, if_false, mapGet]
        by_cases hk' : k0 = k'
        · simp [hk']
        · simp [hk', ih]

theorem mapGet_update_self (m : List (κ × ν)) (k : κ) (f : ν → ν) :
    mapGet (mapUpdate m k f) k = (mapGet m k).map f := by
  induction m with
  | nil => simp [mapGet, mapUpdate]
  | cons e rest ih =>
      obtain ⟨k0, v0⟩ := e
      by_cases hk : k0 = k
      · subst hk
        simp [mapUpdate, mapGet]
      · simp [mapUpdate, hk, mapGet, ih]

theorem length_mapUpdate (m : List (κ × ν)) (k : κ) (f : ν → ν) :
    (mapUpdate m k f).length = m.length := by
  induction m with
  | nil => rfl
  | cons e rest ih =>
      by_cases hk : e.1 = k <;> simp [mapUpdate, hk, ih]

theorem length_mapDelete_le (m : List (κ × ν)) (k : κ) :
    (mapDelete m k).length ≤ m.length := by
  induction m with
  | nil => simp [mapDelete]
  | cons e rest ih =>
      by_cases hk : e.1 = k <;> simp [mapDelete, hk] <;> omega

theorem length_mapDelete_lt {m : List (κ × ν)} {k : κ} {v : ν}
    (h : mapGet m k = some v) : (mapDelete m k).length < m.length := by
  induction m with
  | nil => simp [mapGet] at h
  | cons e rest ih =>
      obtain ⟨k0, v0⟩ := e
      by_cases hk : k0 = k
      · have := length_mapDelete_le rest k
        simp [mapDelete, hk]
        omega
      · simp [mapGet, hk] at h
        simp [mapDelete, hk]
        exact ih h

theorem mapSet_of_get_none {m : List (κ × ν)} {k : κ} (v : ν)
    (h : mapGet m k = none) : mapSet m k v = m ++ [(k, v)] := by
  induction m with
  | nil => simp [mapSet]
  | cons e rest ih =>
      obtain ⟨k0, v0⟩ := e
      by_cases hk : k0 = k
      · simp [mapGet, hk] at h
      · simp [mapGet, hk] at h
        simp [mapSet, hk, ih h]

theorem length_mapSet_of_get_none {m : List (κ × ν)} {k : κ} (v : ν)
    (h : mapGet m k = none) : (mapSet m k v).length = m.length + 1 := by
  rw [mapSet_of_get_none v h]
  simp

theorem length_mapSet_of_get_some {m : List (κ × ν)} {k : κ} {w : ν} (v : ν)
    (h : mapGet m k = some w) : (mapSet m k v).length = m.length := by
  induction m with
  | nil => simp [mapGet] at h
  | cons e rest ih =>
      obtain ⟨k0, v0⟩ := e
      by_cases hk : k0 = k
      · simp [mapSet, hk]
      · simp [mapGet, hk] at h
        simp [mapSet, hk, ih h]

theorem mem_mapSet {m : List (κ × ν)} {k : κ} {v : ν} {e : κ × ν}
    (h : e ∈ mapSet m k v) : e = (k, v) ∨ e ∈ m := by
  induction m with
  | nil => simpa [mapSet] using h
  | cons e0 rest ih =>
      by_cases hk : e0.1 = k
      · simp only [mapSet, hk, if_true] at h
        rcases List.mem_cons.mp h with h | h
        · left; exact h
        · right; exact List.mem_cons_of_mem _ h
      · simp only [mapSet, hk, if_false] at h
        rcases List.mem_cons.mp h with h | h
        · right; simp [h]
        · rcases ih h with h2 | h2
          · left; exact h2
          · right; exact List.mem_cons_of_mem _ h2

theorem mem_mapDelete {m : List (κ × ν)} {k : κ} {e : κ × ν}
    (h : e ∈ mapDelete m k) : e ∈ m := by
  induction m with
  | nil => simpa [mapDelete] using h
  | cons e0 rest ih =>
      by_cases hk : e0.1 = k
      · simp only [mapDelete, hk, if_true] at h
        exact List.mem_cons_of_mem _ (ih h)
      · simp only [mapDelete, hk, if_false] at h
        rcases List.mem_cons.mp h with h | h
        · simp [h]
        · exact List.mem_cons_of_mem _ (ih h)

theorem mem_mapUpdate {m : List (κ × ν)} {k : κ} {f : ν → ν} {e : κ × ν}
    (h : e ∈ mapUpdate m k f) :
    (∃ w, (k, w) ∈ m ∧ e = (k, f w)) ∨ e ∈ m := by
  induction m with
  | nil => simpa [mapUpdate] using h
  | cons e0 rest ih =>
      obtain ⟨k0, v0⟩ := e0
      by_cases hk : k0 = k
      · subst hk
        simp only [mapUpdate, if_true] at h
        rcases List.mem_cons.mp h with h | h
        · left
          exact ⟨v0, by simp, h⟩
        · right; exact List.mem_cons_of_mem _ h
      · simp only [mapUpdate, hk, if_false] at h
        rcases List.mem_cons.mp h with h | h
        · right; simp [h]
        · rcases ih h with ⟨w, hw, he2⟩ | h2
          · left; exact ⟨w, List.mem_cons_of_mem _ hw, he2⟩
          · right; exact List.mem_cons_of_mem _ h2

end MapLemmas

theorem mem_mruEvict {m : List (VPath × PathRec)} {n : Nat} {e : VPath × PathRec}
    (h : e ∈ mruEvict m n) : e ∈ m := by
  unfold mruEvict at h
  by_cases hl : m.length > n
  · simp only [hl, if_true] at h
    cases m with
    | nil => simpa using h
    | cons e0 rest => exact List.mem_cons_of_mem _ h
  · simpa [hl] using h

/-! ### C4: the `lib/trigger.js` latch -/

/-- C4 counterexample: the claim that a fire issued after a cancel does not
fire the trigger is false for `lib/trigger.js` — `cancel()` only clears the
pending timer, so a subsequent `fire("read")` still resolves the promise
(the repository's own trigger test asserts exactly this behaviour). -/
theorem trigger_fire_after_cancel_fires :
    ((LTrigger.new.cancel).fire "read").resolved = some "read" ∧
      LTrigger.new.cancel.resolved = none := by
  constructor <;> rfl

/-- C4 amended: once the trigger has fired, further `fire`, `fireAfter`
(including the later expiry of the timer it schedules) and `cancel` calls
never change the observed resolution, and an observer sees at most one
resolution (the first `fire`'s value); `cancel`, however, is not a terminal
state: it only clears the pending timer, and a later `fire` resolves the
trigger exactly as it would have without the cancel. -/
theorem trigger_resolution_monotone (t : LTrigger) (v w : String) (d : Nat) :
    ((t.fire v).fire w).resolved = (t.fire v).resolved ∧
      ((t.fire v).cancel).resolved = (t.fire v).resolved ∧
      (((t.fire v).fireAfter d w).expire).resolved = (t.fire v).resolved ∧
      ((t.fire v).resolved = some (t.resolved.getD v)) ∧
      ((t.cancel).fire v).resolved = (t.fire v).resolved ∧
      (t.cancel).resolved = t.resolved := by
  obtain ⟨r, ft⟩ := t
  cases r <;>
    simp [LTrigger.fire, LTrigger.cancel, LTrigger.resolve, LTrigger.fireAfter, LTrigger.expire]

/-! ### C6: the serialized executor isolates work-item failures -/

theorem runQueue_append (its1 its2 : List WorkItem) (st : CState) :
    runQueue (its1 ++ its2) st =
      ((runQueue its2 (runQueue its1 st).1).1,
        (runQueue its1 st).2 ++ (runQueue its2 (runQueue its1 st).1).2) := by
  induction its1 generalizing st with
  | nil => simp [runQueue]
  | cons it rest ih =>
      simp only [List.cons_append, runQueue, List.append_eq]
      rw [ih]
      simp

/-- C6: a work item that raises an error mid-queue is caught at the
`execute` boundary: the queue's result carries every event of the earlier
items, the failing item's own events followed by exactly one `error`
emission, and then the events of all the later items, which run from the
state the failing item reached — the failure neither propagates to any
caller (the executor's type carries no exception) nor stops the executor. -/
theorem executor_isolates_failure (pre post : List WorkItem) (it : WorkItem)
    (st : CState) (e : Err) (h : (it (runQueue pre st).1).2.2 = some e) :
    runQueue (pre ++ it :: post) st =
      ((runQueue post (it (runQueue pre st).1).1).1,
        (runQueue pre st).2 ++ ((it (runQueue pre st).1).2.1 ++ [Event.error e]
          ++ (runQueue post (it (runQueue pre st).1).1).2)) := by
  rw [runQueue_append]
  simp only [runQueue, execute]
  rcases hr : it (runQueue pre st).1 with ⟨st1, evs, e?⟩
  rw [hr] at h
  simp only at h
  subst h
  simp

/-- Empty concrete state used by the witnesses. -/
def st0 : CState := ⟨[], [], [], [], []⟩

/-- A concrete work item that succeeds, emitting one event. -/
def wOkItem : WorkItem := fun st => (st, [Event.read []], none)

/-- A concrete work item that fails with an IO error. -/
def wFailItem : WorkItem := fun st => (st, [], some (.ioError []))

/-- C6 witness: a concrete three-item queue whose middle item fails. -/
theorem executor_isolates_failure_witness :
    (wFailItem (runQueue [wOkItem] st0).1).2.2 = some (.ioError []) ∧
      runQueue ([wOkItem] ++ wFailItem :: [wOkItem]) st0 =
        ((runQueue [wOkItem] (wFailItem (runQueue [wOkItem] st0).1).1).1,
          (runQueue [wOkItem] st0).2 ++ ((wFailItem (runQueue [wOkItem] st0).1).2.1
            ++ [Event.error (.ioError [])]
            ++ (runQueue [wOkItem] (wFailItem (runQueue [wOkItem] st0).1).1).2)) :=
  ⟨rfl, executor_isolates_failure [wOkItem] [wOkItem] wFailItem st0 (.ioError []) rfl⟩

/-! ### C9: opening a non-cacheable path emits `read` and nothing else -/

/-- C9: when the basename fails the preload filter, `onOpen` emits exactly
one `read` event and leaves the whole state unchanged — no locate, no open
record, no trigger, no error; and since no record was created for the fd,
a subsequent `onRead` or `onClose` of that fd finds no record and leaves
the state unchanged as well. -/
theorem onOpen_noncacheable_frame (cfg : Config) (st : CState) (fd : Nat) (path : VPath)
    (bytes : Nat) (hf : cfg.preloadFilter (jsBasename path) = false)
    (ho : mapGet st.openFiles fd = none) :
    onOpen cfg st fd path = (st, [Event.read path], none) ∧
      onRead cfg st fd bytes = st ∧
      onClose st fd = st := by
  refine ⟨?_, ?_, ?_⟩
  · simp [onOpen, hf]
  · simp [onRead, ho]
  · simp [onClose, ho]

/-- C9 witness: a concrete non-cacheable open. -/
theorem onOpen_noncacheable_frame_witness :
    (⟨2, fun s => s == "x.flac", 50, 2000, 10⟩ : Config).preloadFilter
        (jsBasename ["a", "meta.json"]) = false ∧
      mapGet st0.openFiles 1 = none ∧
      (onOpen ⟨2, fun s => s == "x.flac", 50, 2000, 10⟩ st0 1 ["a", "meta.json"]
          = (st0, [Event.read ["a", "meta.json"]], none) ∧
        onRead ⟨2, fun s => s == "x.flac", 50, 2000, 10⟩ st0 1 7 = st0 ∧
        onClose st0 1 = st0) :=
  ⟨by decide, rfl,
    onOpen_noncacheable_frame ⟨2, fun s => s == "x.flac", 50, 2000, 10⟩ st0 1
      ["a", "meta.json"] 7 (by decide) rfl⟩

/-! ### C5 and C10: the read-volume trigger -/

theorem locate_frame (cfg : Config) (st : CState) (p : VPath) :
    (locate cfg st p).1.sourceFs = st.sourceFs ∧
      (locate cfg st p).1.cacheFs = st.cacheFs ∧
      (locate cfg st p).1.cacheDirs = st.cacheDirs ∧
      (locate cfg st p).1.openFiles = st.openFiles := by
  unfold locate
  cases mapGet st.mruFiles p with
  | some rcd => simp
  | none =>
      cases mapGet st.cacheFs p with
      | some stats => simp
      | none =>
          cases mapGet st.sourceFs p with
          | some stats => simp
          | none => simp

/-- C5: `onRead(fd, bytes)` with a tracked record adds `bytes` to the
record's cumulative count and issues `fire("read")` on the trigger exactly
when the size is already known and the new cumulative count strictly
exceeds `size × preloadRead / 100`; with `preloadRead = 0` any read of at
least one byte on a record of known size fires; with no record for the fd
the call returns with no effect at all. -/
theorem onRead_spec (cfg : Config) (st : CState) (fd : Nat) (bytes : Nat) :
    (mapGet st.openFiles fd = none → onRead cfg st fd bytes = st) ∧
      (∀ rcd, mapGet st.openFiles fd = some rcd →
        ∃ rcd2,
          onRead cfg st fd bytes = { st with openFiles := mapSet st.openFiles fd rcd2 } ∧
          rcd2.path = rcd.path ∧ rcd2.size = rcd.size ∧
          rcd2.read = rcd.read + bytes ∧
          (rcd.size = none → rcd2.trigger = rcd.trigger) ∧
          (∀ n, rcd.size = some n →
            ((((rcd.read + bytes : Nat) : ℚ) > (cfg.preloadRead : ℚ) * (n : ℚ) / 100) →
              rcd2.trigger = TimedTrigger.fire "read" rcd.trigger) ∧
            (¬ (((rcd.read + bytes : Nat) : ℚ) > (cfg.preloadRead : ℚ) * (n : ℚ) / 100) →
              rcd2.trigger = rcd.trigger)) ∧
          (cfg.preloadRead = 0 → 1 ≤ bytes → ∀ n, rcd.size = some n →
            rcd2.trigger = TimedTrigger.fire "read" rcd.trigger)) := by
  constructor
  · intro h
    simp [onRead, h]
  · intro rcd h
    refine ⟨_, by rw [onRead, h], ?_⟩
    by_cases hh : readHot cfg { rcd with read := rcd.read + bytes }
    · rw [if_pos hh]
      refine ⟨rfl, rfl, rfl, ?_, ?_, ?_⟩
      · intro hs
        simp [readHot, hs] at hh
      · intro n hs
        refine ⟨fun _ => rfl, fun hc => absurd ?_ hc⟩
        simpa [readHot, hs, decide_eq_true_eq] using hh
      · intro _ _ n hs
        rfl
    · rw [if_neg hh]
      refine ⟨rfl, rfl, rfl, fun _ => rfl, ?_, ?_⟩
      · intro n hs
        refine ⟨fun hc => absurd hc ?_, fun _ => rfl⟩
        simpa [readHot, hs, decide_eq_true_eq] using hh
      · intro hp hb n hs
        exfalso
        apply hh
        simp only [readHot, hs, decide_eq_true_eq, hp]
        push_cast
        have : (0 : ℚ) < ((rcd.read + bytes : Nat) : ℚ) := by
          exact_mod_cast Nat.pos_of_ne_zero (by omega)
        push_cast at this
        simpa using this

/-- Concrete open-file record for the read-trigger witnesses. -/
def rcdR : OpenRec := ⟨["a", "01.flac"], .armed none, 0, some 10⟩

/-- Concrete state tracking `rcdR` under fd 4. -/
def stR : CState := ⟨[], [], [], [], [(4, rcdR)]⟩

/-- Concrete configuration for the read-trigger witnesses. -/
def cfgR : Config := ⟨2, fun _ => true, 50, 2000, 10⟩

/-- C5 witness: fd 4 is tracked with 0 of 10 bytes read and a 50% threshold. -/
theorem onRead_spec_witness :
    mapGet stR.openFiles 4 = some rcdR ∧
      (∃ rcd2,
        onRead cfgR stR 4 6 = { stR with openFiles := mapSet stR.openFiles 4 rcd2 } ∧
        rcd2.path = rcdR.path ∧ rcd2.size = rcdR.size ∧
        rcd2.read = rcdR.read + 6 ∧
        (rcdR.size = none → rcd2.trigger = rcdR.trigger) ∧
        (∀ n, rcdR.size = some n →
          ((((rcdR.read + 6 : Nat) : ℚ) > (cfgR.preloadRead : ℚ) * (n : ℚ) / 100) →
            rcd2.trigger = TimedTrigger.fire "read" rcdR.trigger) ∧
          (¬ (((rcdR.read + 6 : Nat) : ℚ) > (cfgR.preloadRead : ℚ) * (n : ℚ) / 100) →
            rcd2.trigger = rcdR.trigger)) ∧
        (cfgR.preloadRead = 0 → 1 ≤ 6 → ∀ n, rcdR.size = some n →
          rcd2.trigger = TimedTrigger.fire "read" rcdR.trigger)) :=
  ⟨rfl, (onRead_spec cfgR stR 4 6).2 rcdR rfl⟩

/-- C10: the asynchronous size fetch enqueued at open merely stores the
located size into the record — the trigger (and the cumulative read count,
and both file trees) are untouched, even when the stored size means the
read threshold is already exceeded; only a subsequent `onRead` for that fd
(here with `b` further bytes) applies `fire("read")`. -/
theorem getFileSize_no_fire (cfg : Config) (st : CState) (fd : Nat) (rcd : OpenRec)
    (h : mapGet st.openFiles fd = some rcd) :
    ((mapGet (getFileSize cfg st fd rcd.path).1.openFiles fd).map (·.trigger)
        = some rcd.trigger) ∧
      ((mapGet (getFileSize cfg st fd rcd.path).1.openFiles fd).map (·.read)
        = some rcd.read) ∧
      ((getFileSize cfg st fd rcd.path).1.cacheFs = st.cacheFs) ∧
      ((getFileSize cfg st fd rcd.path).1.sourceFs = st.sourceFs) ∧
      (∀ prec, (locate cfg st rcd.path).2 = .ok prec →
        mapGet (getFileSize cfg st fd rcd.path).1.openFiles fd
          = some { rcd with size := some prec.stats.size }) ∧
      (∀ prec, (locate cfg st rcd.path).2 = .ok prec → ∀ b,
        (((rcd.read + b : Nat) : ℚ) > (cfg.preloadRead : ℚ) * (prec.stats.size : ℚ) / 100) →
        (mapGet (onRead cfg (getFileSize cfg st fd rcd.path).1 fd b).openFiles fd).map
            (·.trigger)
          = some (TimedTrigger.fire "read" rcd.trigger)) := by
  have hfr := locate_frame cfg st rcd.path
  unfold getFileSize
  rcases hl : locate cfg st rcd.path with ⟨st1, r⟩
  rw [hl] at hfr
  obtain ⟨hfr1, hfr2, hfr3, hfr4⟩ := hfr
  simp only at hfr1 hfr2 hfr3 hfr4
  cases r with
  | error e =>
      refine ⟨by rw [hfr4, h]; rfl, by rw [hfr4, h]; rfl, hfr2, hfr1, ?_, ?_⟩
      · intro prec hp
        simp at hp
      · intro prec hp
        simp at hp
  | ok rcd0 =>
      simp only [hfr4, h]
      have hset := mapGet_set_self st.openFiles fd { rcd with size := some rcd0.stats.size }
      refine ⟨by simp [hset], by simp [hset], hfr2, hfr1, ?_, ?_⟩
      · intro prec hp
        simp only [Except.ok.injEq] at hp
        subst hp
        exact hset
      · intro prec hp b hb
        simp only [Except.ok.injEq] at hp
        subst hp
        unfold onRead
        rw [hset]
        have hhot : readHot cfg
            { rcd with size := some rcd0.stats.size, read := rcd.read + b } = true := by
          simp only [readHot, decide_eq_true_eq]
          exact_mod_cast hb
        simp only [hhot, if_true, mapGet_set_self, Option.map_some]
        rfl

/-- Concrete record for the C10 witness: 8 of 10 bytes already read while
the size is still unknown, so the record is already past the 50%
threshold the moment the size arrives. -/
def rcdT : OpenRec := ⟨["a", "01.flac"], .armed none, 8, none⟩

/-- Concrete state for the C10 witness. -/
def stT : CState := ⟨[(["a", "01.flac"], ⟨10, 0, 0⟩)], [], [], [], [(5, rcdT)]⟩

/-- C10 witness: the size fetch on fd 5 stores 10 without firing, and only
the following `onRead` fires. -/
theorem getFileSize_no_fire_witness :
    mapGet stT.openFiles 5 = some rcdT ∧
      (((mapGet (getFileSize cfgR stT 5 rcdT.path).1.openFiles 5).map (·.trigger)
          = some rcdT.trigger) ∧
        ((mapGet (getFileSize cfgR stT 5 rcdT.path).1.openFiles 5).map (·.read)
          = some rcdT.read) ∧
        ((getFileSize cfgR stT 5 rcdT.path).1.cacheFs = stT.cacheFs) ∧
        ((getFileSize cfgR stT 5 rcdT.path).1.sourceFs = stT.sourceFs) ∧
        (∀ prec, (locate cfgR stT rcdT.path).2 = .ok prec →
          mapGet (getFileSize cfgR stT 5 rcdT.path).1.openFiles 5
            = some { rcdT with size := some prec.stats.size }) ∧
        (∀ prec, (locate cfgR stT rcdT.path).2 = .ok prec → ∀ b,
          (((rcdT.read + b : Nat) : ℚ) > (cfgR.preloadRead : ℚ) * (prec.stats.size : ℚ) / 100) →
          (mapGet (onRead cfgR (getFileSize cfgR stT 5 rcdT.path).1 5 b).openFiles 5).map
              (·.trigger)
            = some (TimedTrigger.fire "read" rcdT.trigger))) :=
  ⟨rfl, getFileSize_no_fire cfgR stT 5 rcdT rfl⟩

/-! ### C2: caching an already-cached path is a no-op -/

/-- A path that any observation would report as cached: a cache copy exists
and whatever MRU entry there is for it says `cached`.  (Reachable states
keep these in sync: `uncacheFile` flips the MRU entry before unlinking and
`cacheFile` drops the MRU entry after copying.) -/
def CachedView (st : CState) (p : VPath) : Prop :=
  (mapGet st.cacheFs p).isSome = true ∧ ∀ e ∈ st.mruFiles, e.1 = p → e.2.cached = true

instance (st : CState) (p : VPath) : Decidable (CachedView st p) := by
  unfold CachedView
  infer_instance

theorem locate_reports_cached (cfg : Config) {st : CState} {p : VPath}
    (h : CachedView st p) :
    ∃ rcd, (locate cfg st p).2 = .ok rcd ∧ rcd.cached = true := by
  obtain ⟨hc, hm⟩ := h
  unfold locate
  cases hmru : mapGet st.mruFiles p with
  | some rcd =>
      exact ⟨rcd, rfl, hm (p, rcd) (mapGet_mem hmru) rfl⟩
  | none =>
      cases hcf : mapGet st.cacheFs p with
      | some stats => exact ⟨_, rfl, rfl⟩
      | none => rw [hcf] at hc; simp at hc

theorem locate_preserves_CachedView (cfg : Config) {st : CState} {p : VPath} (q : VPath)
    (h : CachedView st p) : CachedView (locate cfg st q).1 p := by
  obtain ⟨hc, hm⟩ := h
  have hfr := locate_frame cfg st q
  refine ⟨by rw [hfr.2.1]; exact hc, ?_⟩
  unfold locate
  cases hmru : mapGet st.mruFiles q with
  | some rcd =>
      intro e he hep
      rcases mem_mapSet he with he2 | he2
      · rw [he2] at hep ⊢
        simp only at hep
        subst hep
        exact hm (q, rcd) (mapGet_mem hmru) rfl
      · exact hm e (mem_mapDelete he2) hep
  | none =>
      cases hcf : mapGet st.cacheFs q with
      | some stats =>
          intro e he hep
          rcases mem_mapSet (mem_mruEvict he) with he2 | he2
          · subst he2; rfl
          · exact hm e he2 hep
      | none =>
          cases hsf : mapGet st.sourceFs q with
          | some stats =>
              intro e he hep
              rcases mem_mapSet (mem_mruEvict he) with he2 | he2
              · subst he2
                simp only at hep
                subst hep
                rw [hcf] at hc
                simp at hc
              · exact hm e he2 hep
          | none => exact hm

theorem cacheFile_of_CachedView (cfg : Config) {st : CState} {p : VPath}
    (h : CachedView st p) : cacheFile cfg st p = ((locate cfg st p).1, .ok false) := by
  obtain ⟨rcd, hok, hcached⟩ := locate_reports_cached cfg h
  unfold cacheFile
  rcases hl : locate cfg st p with ⟨st1, r⟩
  rw [hl] at hok
  simp only at hok
  subst hok
  simp [hcached]

theorem cacheFile_preserves_CachedView (cfg : Config) {st : CState} {p : VPath} (q : VPath)
    (h : CachedView st p) : CachedView (cacheFile cfg st q).1 p := by
  have h1 := locate_preserves_CachedView cfg q h
  unfold cacheFile
  rcases hl : locate cfg st q with ⟨st1, r⟩
  rw [hl] at h1
  simp only at h1
  cases r with
  | error e => exact h1
  | ok rcd =>
      by_cases hcached : rcd.cached
      · simpa [hcached] using h1
      · obtain ⟨hc1, hm1⟩ := h1
        simp only [hcached, Bool.false_eq_true, if_false]
        cases hsf : mapGet st1.sourceFs q with
        | none => exact ⟨hc1, hm1⟩
        | some stats =>
            constructor
            · by_cases hpq : p = q
              · subst hpq
                simp [mapGet_set_self]
              · rw [mapGet_set_ne _ _ hpq]
                exact hc1
            · intro e he hep
              exact hm1 e (mem_mapDelete he) hep

theorem cacheSiblings_no_cache_event (cfg : Config) {p : VPath} (sibs : List VPath)
    (st : CState) (h : CachedView st p) :
    Event.cache p ∉ (cacheSiblings cfg sibs st).2.1 := by
  induction sibs generalizing st with
  | nil => simp [cacheSiblings]
  | cons q rest ih =>
      unfold cacheSiblings
      rcases hcf : cacheFile cfg st q with ⟨st1, r⟩
      have hpres : CachedView st1 p := by
        have := cacheFile_preserves_CachedView cfg q h
        rw [hcf] at this
        exact this
      cases r with
      | error e => simp
      | ok b =>
          simp only [List.mem_append]
          intro hmem
          rcases hmem with hmem | hmem
      
          · by_cases hb : b
            · simp only [hb, if_true, List.mem_singleton] at hmem
              have hpq : p = q := by injection hmem
              subst hpq
              have h2 := cacheFile_of_CachedView cfg h
              rw [hcf] at h2
              have hb2 : (Except.ok b : Except Err Bool) = .ok false := congrArg Prod.snd h2
              simp only [Except.ok.injEq] at hb2
              rw [hb2] at hb
              exact Bool.false_ne_true hb
            · simp [hb] at hmem
          · exact ih st1 hpres hmem

/-- C2: for a path every observation reports as cached, `cacheFile` is a
no-op: it returns "already cached" (`false`) straight after its `locate`
(so no copy, no mkdir, no utimes — cache tree, cache directories and
source tree are untouched), and a preload run (`requestCache`) never emits
a `cache` event for that path. -/
theorem cacheFile_already_cached_noop (cfg : Config) (st : CState) (p : VPath)
    (h : CachedView st p) :
    ((locate cfg st p).2.toOption.map (·.cached) = some true) ∧
      cacheFile cfg st p = ((locate cfg st p).1, .ok false) ∧
      (cacheFile cfg st p).1.cacheFs = st.cacheFs ∧
      (cacheFile cfg st p).1.cacheDirs = st.cacheDirs ∧
      (cacheFile cfg st p).1.sourceFs = st.sourceFs ∧
      (∀ q reason, Event.cache p ∉ (requestCache cfg st reason q).2.1) := by
  obtain ⟨rcd, hok, hcached⟩ := locate_reports_cached cfg h
  have hcf := cacheFile_of_CachedView cfg h
  have hfr := locate_frame cfg st p
  refine ⟨by rw [hok]; simp [Except.toOption, hcached], hcf, ?_, ?_, ?_, ?_⟩
  · rw [hcf]; exact hfr.2.1
  · rw [hcf]; exact hfr.2.2.1
  · rw [hcf]; exact hfr.1
  · intro q reason hmem
    unfold requestCache at hmem
    simp only [List.mem_cons] at hmem
    rcases hmem with hmem | hmem
    · exact Event.noConfusion hmem
    · exact cacheSiblings_no_cache_event cfg _ st h hmem

/-- Concrete state for the C2 witness: `/a/01.flac` cached (with a matching
MRU entry) while `/a/02.flac` is only in the source. -/
def stC : CState :=
  ⟨[(["a", "01.flac"], ⟨10, 0, 0⟩), (["a", "02.flac"], ⟨10, 5, 5⟩)],
    [(["a", "01.flac"], ⟨10, 0, 0⟩)], [["a"]],
    [(["a", "01.flac"], ⟨["a", "01.flac"], ⟨.cache, ["a", "01.flac"]⟩, true, true, ⟨10, 0, 0⟩⟩)],
    []⟩

/-- C2 witness: recaching the cached `/a/01.flac` is a no-op. -/
theorem cacheFile_already_cached_noop_witness :
    CachedView stC ["a", "01.flac"] ∧
      (((locate cfgR stC ["a", "01.flac"]).2.toOption.map (·.cached) = some true) ∧
        cacheFile cfgR stC ["a", "01.flac"] = ((locate cfgR stC ["a", "01.flac"]).1, .ok false) ∧
        (cacheFile cfgR stC ["a", "01.flac"]).1.cacheFs = stC.cacheFs ∧
        (cacheFile cfgR stC ["a", "01.flac"]).1.cacheDirs = stC.cacheDirs ∧
        (cacheFile cfgR stC ["a", "01.flac"]).1.sourceFs = stC.sourceFs ∧
        (∀ q reason, Event.cache ["a", "01.flac"]
          ∉ (requestCache cfgR stC reason q).2.1)) :=
  ⟨by decide, cacheFile_already_cached_noop cfgR stC ["a", "01.flac"] (by decide)⟩

/-! ### C3: eviction preserves source visibility -/

/-- C3: for a path with a cache copy (and a source original), `uncacheFile`
first mutates the located MRU record — at the intermediate state
`uncacheMid`, before the unlink, the cache copy is still on disk while any
MRU entry for the path already says `cached = false` with the fullpath
under the source root — then unlinks the cache copy; afterwards any
`locate` of the path reports `cached = false` with the fullpath under the
source root. -/
theorem uncacheFile_source_visibility (cfg : Config) (st : CState) (p : VPath)
    (s0 s1 : Stats) (h1 : mapGet st.cacheFs p = some s0)
    (h2 : mapGet st.sourceFs p = some s1) :
    (mapGet (uncacheMid cfg st p).1.cacheFs p = some s0) ∧
      (∀ r, mapGet (uncacheMid cfg st p).1.mruFiles p = some r →
        r.cached = false ∧ r.fullpath = ⟨.source, p⟩) ∧
      (mapGet (uncacheFile cfg st p).1.cacheFs p = none) ∧
      (((locate cfg (uncacheFile cfg st p).1 p).2.toOption.map
          fun r => (r.cached, r.fullpath)) = some (false, ⟨Root.source, p⟩)) := by
  have hfr := locate_frame cfg st p
  rcases hl : locate cfg st p with ⟨st1, r⟩
  rw [hl] at hfr
  obtain ⟨hfr1, hfr2, hfr3, hfr4⟩ := hfr
  simp only at hfr1 hfr2 hfr3 hfr4
  have hok : ∃ rcd, r = Except.ok rcd := by
    unfold locate at hl
    cases hmru : mapGet st.mruFiles p with
    | some rcd =>
        rw [hmru] at hl
        exact ⟨rcd, ((Prod.mk.injEq _ _ _ _).mp hl).2.symm⟩
    | none =>
        rw [hmru, h1] at hl
        exact ⟨_, ((Prod.mk.injEq _ _ _ _).mp hl).2.symm⟩
  obtain ⟨rcd, hrok⟩ := hok
  subst hrok
  have hmid : uncacheMid cfg st p =
      ({ st1 with mruFiles := mapUpdate st1.mruFiles p fun r =>
          { r with cached := false, fullpath := ⟨.source, p⟩ } }, .ok ()) := by
    unfold uncacheMid
    rw [hl]
  have hmid1 : mapGet (uncacheMid cfg st p).1.cacheFs p = some s0 := by
    rw [hmid]
    simp only
    rw [hfr2]
    exact h1
  have hmid2 : ∀ r, mapGet (uncacheMid cfg st p).1.mruFiles p = some r →
      r.cached = false ∧ r.fullpath = ⟨.source, p⟩ := by
    intro r hr
    rw [hmid] at hr
    simp only [mapGet_update_self] at hr
    cases hg : mapGet st1.mruFiles p with
    | none => rw [hg] at hr; simp at hr
    | some r0 =>
        rw [hg] at hr
        simp at hr
        subst hr
        exact ⟨rfl, rfl⟩
  rcases hrm : rmdirs (mapDelete st1.cacheFs p) st1.cacheDirs p.dropLast with ⟨dirs2, e2⟩
  have hun : uncacheFile cfg st p =
      ({ st1 with
          mruFiles := mapUpdate st1.mruFiles p fun r =>
            { r with cached := false, fullpath := ⟨.source, p⟩ },
          cacheFs := mapDelete st1.cacheFs p,
          cacheDirs := dirs2 }, e2) := by
    unfold uncacheFile
    rw [hmid]
    dsimp only
    rw [hrm]
  have hB : mapGet (uncacheFile cfg st p).1.cacheFs p = none := by
    rw [hun]
    exact mapGet_delete_self _ p
  refine ⟨hmid1, hmid2, hB, ?_⟩
  unfold locate
  cases hm2 : mapGet (uncacheFile cfg st p).1.mruFiles p with
  | some r =>
      have hm3 : mapGet (uncacheMid cfg st p).1.mruFiles p = some r := by
        rw [hmid]
        rw [hun] at hm2
        exact hm2
      have hr := hmid2 r hm3
      simp [Except.toOption, hr.1, hr.2]
  | none =>
      rw [hB]
      have hsf : mapGet (uncacheFile cfg st p).1.sourceFs p = some s1 := by
        rw [hun]
        dsimp only
        rw [hfr1]
        exact h2
      rw [hsf]
      simp [Except.toOption]

/-- Concrete state for the C3 witness: `/a/01.flac` cached and present in
the source. -/
def stU : CState :=
  ⟨[(["a", "01.flac"], ⟨10, 0, 0⟩)], [(["a", "01.flac"], ⟨10, 3, 3⟩)], [["a"]], [], []⟩

/-- C3 witness: evicting the cached `/a/01.flac` from a concrete state. -/
theorem uncacheFile_source_visibility_witness :
    mapGet stU.cacheFs ["a", "01.flac"] = some ⟨10, 3, 3⟩ ∧
      mapGet stU.sourceFs ["a", "01.flac"] = some ⟨10, 0, 0⟩ ∧
      ((mapGet (uncacheMid cfgR stU ["a", "01.flac"]).1.cacheFs ["a", "01.flac"]
          = some ⟨10, 3, 3⟩) ∧
        (∀ r, mapGet (uncacheMid cfgR stU ["a", "01.flac"]).1.mruFiles ["a", "01.flac"]
            = some r → r.cached = false ∧ r.fullpath = ⟨.source, ["a", "01.flac"]⟩) ∧
        (mapGet (uncacheFile cfgR stU ["a", "01.flac"]).1.cacheFs ["a", "01.flac"] = none) ∧
        (((locate cfgR (uncacheFile cfgR stU ["a", "01.flac"]).1 ["a", "01.flac"]).2.toOption.map
            fun r => (r.cached, r.fullpath)) = some (false, ⟨Root.source, ["a", "01.flac"]⟩))) :=
  ⟨rfl, rfl,
    uncacheFile_source_visibility cfgR stU ["a", "01.flac"] ⟨10, 3, 3⟩ ⟨10, 0, 0⟩ rfl rfl⟩

/-! ### C8: the MRU never exceeds `mruSize` entries -/

theorem mruEvict_bound {m : List (VPath × PathRec)} {s : Nat} (h : m.length ≤ s + 1) :
    (mruEvict m s).length ≤ s := by
  unfold mruEvict
  by_cases hl : m.length > s
  · simp only [hl, if_true]
    cases m with
    | nil => simp
    | cons e t => simp at h ⊢; omega
  · simp only [hl, if_false]
    omega

theorem locate_mru_bound (cfg : Config) {st : CState} (p : VPath)
    (h : st.mruFiles.length ≤ cfg.mruSize) :
    (locate cfg st p).1.mruFiles.length ≤ cfg.mruSize := by
  unfold locate
  cases hmru : mapGet st.mruFiles p with
  | some rcd =>
      have hd := length_mapDelete_lt hmru
      have hnone := mapGet_delete_self st.mruFiles p
      simp only
      rw [length_mapSet_of_get_none _ hnone]
      omega
  | none =>
      cases hcf : mapGet st.cacheFs p with
      | some stats =>
          simp only
          exact mruEvict_bound (by rw [length_mapSet_of_get_none _ hmru]; omega)
      | none =>
          cases hsf : mapGet st.sourceFs p with
          | some stats =>
              simp only
              exact mruEvict_bound (by rw [length_mapSet_of_get_none _ hmru]; omega)
          | none => exact h

theorem cacheFile_mru_bound (cfg : Config) {st : CState} (p : VPath)
    (h : st.mruFiles.length ≤ cfg.mruSize) :
    (cacheFile cfg st p).1.mruFiles.length ≤ cfg.mruSize := by
  have hloc := locate_mru_bound cfg p h
  unfold cacheFile
  rcases hl : locate cfg st p with ⟨st1, r⟩
  rw [hl] at hloc
  cases r with
  | error e => exact hloc
  | ok rcd =>
      by_cases hc : rcd.cached
      · simpa [hc] using hloc
      · simp only [hc, Bool.false_eq_true, if_false]
        cases hsf : mapGet st1.sourceFs p with
        | none => exact hloc
        | some stats =>
            exact le_trans (length_mapDelete_le _ _) hloc

theorem uncacheMid_mru_bound (cfg : Config) {st : CState} (p : VPath)
    (h : st.mruFiles.length ≤ cfg.mruSize) :
    (uncacheMid cfg st p).1.mruFiles.length ≤ cfg.mruSize := by
  have hloc := locate_mru_bound cfg p h
  unfold uncacheMid
  rcases hl : locate cfg st p with ⟨st1, r⟩
  rw [hl] at hloc
  cases r with
  | error e => exact hloc
  | ok rcd =>
      simp only
      rw [length_mapUpdate]
      exact hloc

theorem uncacheFile_mruFiles (cfg : Config) (st : CState) (p : VPath) :
    (uncacheFile cfg st p).1.mruFiles = (uncacheMid cfg st p).1.mruFiles := by
  unfold uncacheFile
  rcases hm : uncacheMid cfg st p with ⟨st1, r⟩
  cases r with
  | error e => rfl
  | ok u =>
      rcases hrm : rmdirs (mapDelete st1.cacheFs p) st1.cacheDirs p.dropLast with ⟨dirs2, e2⟩
      simp only

theorem uncacheFile_mru_bound (cfg : Config) {st : CState} (p : VPath)
    (h : st.mruFiles.length ≤ cfg.mruSize) :
    (uncacheFile cfg st p).1.mruFiles.length ≤ cfg.mruSize := by
  rw [uncacheFile_mruFiles]
  exact uncacheMid_mru_bound cfg p h

theorem cleanLoop_mru_bound (cfg : Config) (ign : String → Bool) (after : Nat) (now : Int)
    (entries : List (VPath × Stats)) :
    ∀ st : CState, st.mruFiles.length ≤ cfg.mruSize →
      (cleanLoop cfg ign after now entries st).1.mruFiles.length ≤ cfg.mruSize := by
  induction entries with
  | nil =>
      intro st h
      simp [cleanLoop]
  | cons e rest ih =>
      intro st h
      unfold cleanLoop
      by_cases hev : cleanEvicts ign after now e
      · simp only [hev, if_true]
        rcases hu : uncacheFile cfg st e.1 with ⟨st1, e?⟩
        have hb : st1.mruFiles.length ≤ cfg.mruSize := by
          have := uncacheFile_mru_bound cfg e.1 h
          rw [hu] at this
          exact this
        cases e? with
        | some err => exact hb
        | none =>
            simp only
            exact ih st1 hb
      · simp only [hev, Bool.false_eq_true, if_false]
        exact ih st h

/-- C8: from any state with at most `mruSize` MRU entries, each of
`locate`, `cacheFile`, `uncacheFile` and `clean` leaves at most `mruSize`
entries; moreover a `locate` hit moves the entry to the most-recently-used
end of the map. -/
theorem mru_bound_preserved (cfg : Config) (st : CState)
    (h : st.mruFiles.length ≤ cfg.mruSize) :
    (∀ p, (locate cfg st p).1.mruFiles.length ≤ cfg.mruSize) ∧
      (∀ p, (cacheFile cfg st p).1.mruFiles.length ≤ cfg.mruSize) ∧
      (∀ p, (uncacheFile cfg st p).1.mruFiles.length ≤ cfg.mruSize) ∧
      (∀ ign after now, (clean cfg st ign after now).1.mruFiles.length ≤ cfg.mruSize) ∧
      (∀ p rcd, mapGet st.mruFiles p = some rcd →
        ((locate cfg st p).1.mruFiles).getLast? = some (p, rcd)) := by
  refine ⟨fun p => locate_mru_bound cfg p h, fun p => cacheFile_mru_bound cfg p h,
    fun p => uncacheFile_mru_bound cfg p h,
    fun ign after now => cleanLoop_mru_bound cfg ign after now st.cacheFs st h, ?_⟩
  intro p rcd hmru
  unfold locate
  rw [hmru]
  simp only
  rw [mapSet_of_get_none _ (mapGet_delete_self st.mruFiles p)]
  exact List.getLast?_concat _

/-- Concrete state for the C8 witness: two MRU entries with `mruSize = 2`. -/
def stM : CState :=
  ⟨[(["a", "01.flac"], ⟨10, 0, 0⟩), (["b", "03.flac"], ⟨4, 0, 0⟩)],
    [(["a", "01.flac"], ⟨10, 0, 0⟩)], [["a"]],
    [(["b", "03.flac"], ⟨["b", "03.flac"], ⟨.source, ["b", "03.flac"]⟩, false, true, ⟨4, 0, 0⟩⟩),
      (["a", "01.flac"], ⟨["a", "01.flac"], ⟨.cache, ["a", "01.flac"]⟩, true, true, ⟨10, 0, 0⟩⟩)],
    []⟩

/-- Configuration with a 2-entry MRU for the C8 witness. -/
def cfgM : Config := ⟨2, fun _ => true, 50, 2000, 2⟩

/-- C8 witness: a full 2-entry MRU stays within its bound under every
operation. -/
theorem mru_bound_preserved_witness :
    stM.mruFiles.length ≤ cfgM.mruSize ∧
      ((∀ p, (locate cfgM stM p).1.mruFiles.length ≤ cfgM.mruSize) ∧
        (∀ p, (cacheFile cfgM stM p).1.mruFiles.length ≤ cfgM.mruSize) ∧
        (∀ p, (uncacheFile cfgM stM p).1.mruFiles.length ≤ cfgM.mruSize) ∧
        (∀ ign after now, (clean cfgM stM ign after now).1.mruFiles.length ≤ cfgM.mruSize) ∧
        (∀ p rcd, mapGet stM.mruFiles p = some rcd →
          ((locate cfgM stM p).1.mruFiles).getLast? = some (p, rcd))) :=
  ⟨by decide, mru_bound_preserved cfgM stM (by decide)⟩

/-! ### C1: the sibling selector -/

theorem listIndexOf_drop {l : List String} {x : String} {i : Nat}
    (h : listIndexOf l x = some i) : ∃ t, l.drop i = x :: t := by
  induction l generalizing i with
  | nil => simp [listIndexOf] at h
  | cons y ys ih =>
      by_cases hy : y = x
      · simp [listIndexOf, hy] at h
        subst h
        exact ⟨ys, by simp [hy]⟩
      · simp only [listIndexOf, hy, if_false, Option.map_eq_some'] at h
        obtain ⟨j, hj, hij⟩ := h
        obtain ⟨t, ht⟩ := ih hj
        subst hij
        exact ⟨t, by simpa using ht⟩

theorem listIndexOf_lt_length {l : List String} {x : String} {i : Nat}
    (h : listIndexOf l x = some i) : i < l.length := by
  obtain ⟨t, ht⟩ := listIndexOf_drop h
  by_contra hge
  rw [List.drop_eq_nil_of_le (by omega)] at ht
  exact List.noConfusion ht

theorem jsSlice_found {α : Type} (l : List α) (i N : Nat) (h : i < l.length) :
    jsSlice l (i : Int) ((i : Int) + (N : Int) + 1) = (l.drop i).take (N + 1) := by
  unfold jsSlice
  have h0 : ¬((i : Int) < 0) := by omega
  have h1 : ¬((i : Int) + (N : Int) + 1 < 0) := by omega
  have hmin : min (i : Int) (l.length : Int) = (i : Int) :=
    min_eq_left (by exact_mod_cast Nat.le_of_lt h)
  simp only [h0, if_false, h1, hmin]
  by_cases hle : i + N + 1 ≤ l.length
  · have hmin2 : min ((i : Int) + (N : Int) + 1) (l.length : Int) = (i : Int) + (N : Int) + 1 :=
      min_eq_left (by exact_mod_cast hle)
    rw [hmin2]
    have : ((i : Int) + (N : Int) + 1 - (i : Int)).toNat = N + 1 := by omega
    rw [this]
    have : ((i : Int)).toNat = i := by omega
    rw [this]
  · have hmin2 : min ((i : Int) + (N : Int) + 1) (l.length : Int) = (l.length : Int) :=
      min_eq_right (by push_cast; omega)
    rw [hmin2]
    have h2 : ((l.length : Int) - (i : Int)).toNat = l.length - i := by omega
    rw [h2]
    have h3 : ((i : Int)).toNat = i := by omega
    rw [h3]
    rw [List.take_of_length_le (by simp [List.length_drop]),
      List.take_of_length_le (by simp [List.length_drop]; omega)]

theorem jsSlice_neg_one {α : Type} (l : List α) (N : Nat) :
    jsSlice l (-1) (N : Int) =
      if l.length ≤ N then l.drop (l.length - 1) else [] := by
  unfold jsSlice
  have h0 : (-1 : Int) < 0 := by omega
  have h1 : ¬((N : Int) < 0) := by omega
  simp only [h0, if_true, h1, if_false]
  by_cases hle : l.length ≤ N
  · have hmin : min (N : Int) (l.length : Int) = (l.length : Int) :=
      min_eq_right (by exact_mod_cast hle)
    rw [hmin, if_pos hle]
    cases l with
    | nil => simp
    | cons a t =>
        have h2 : (max ((((a :: t).length : Nat) : Int) + -1) 0).toNat = (a :: t).length - 1 := by
          simp only [List.length_cons]
          omega
        rw [h2]
        have h3 : (((((a :: t).length : Nat) : Int)) -
            (max ((((a :: t).length : Nat) : Int) + -1) 0)).toNat = 1 := by
          simp only [List.length_cons]
          omega
        rw [h3]
        have h4 : ((a :: t).drop ((a :: t).length - 1)).length = 1 := by
          simp [List.length_drop]
        exact List.take_of_length_le (by omega)
  · have hmin : min (N : Int) (l.length : Int) = (N : Int) :=
      min_eq_left (by exact_mod_cast (by omega : N ≤ l.length))
    rw [hmin, if_neg hle]
    cases l with
    | nil => simp at hle
    | cons a t =>
        simp only [List.length_cons] at hle
        have h2 : (max ((((a :: t).length : Nat) : Int) + -1) 0).toNat = (a :: t).length - 1 := by
          simp only [List.length_cons]
          omega
        rw [h2]
        have h3 : (((N : Nat) : Int) - (max ((((a :: t).length : Nat) : Int) + -1) 0)).toNat
            = 0 := by
          simp only [List.length_cons]
          omega
        rw [h3]
        simp

theorem dropLast_append_basename (p : VPath) (h : p ≠ []) :
    p.dropLast ++ [jsBasename p] = p := by
  induction p with
  | nil => exact absurd rfl h
  | cons x xs ih =>
      cases xs with
      | nil => rfl
      | cons y t =>
          have ih2 := ih (by simp)
          simp only [jsBasename] at ih2 ⊢
          have hLast : (x :: y :: t).getLastD "" = (y :: t).getLastD "" := by
            simp [List.getLastD]
          rw [hLast]
          have hdl : (x :: y :: t).dropLast = x :: (y :: t).dropLast := by
            simp [List.dropLast]
          rw [hdl, List.cons_append, ih2]

/-- Concrete configuration for the C1 counterexample and witness. -/
def cfgS : Config := ⟨3, fun _ => true, 50, 2000, 10⟩

/-- Concrete state for the C1 counterexample and witness: the source
directory `/a` holds two filter-matching files. -/
def stS : CState :=
  ⟨[(["a", "01.flac"], ⟨10, 0, 0⟩), (["a", "02.flac"], ⟨10, 0, 0⟩)], [], [], [], []⟩

/-- C1 counterexample: `basename("/a/04.flac")` is absent from the listing
of `/a`, yet `getSiblings` returns `["/a/02.flac"]`, not the empty list:
`indexOf` yields `-1` and `slice(-1, preloadSiblings)` takes the last
entry whenever the listing has at most `preloadSiblings` entries. -/
theorem getSiblings_absent_nonempty :
    listIndexOf (siblingListing cfgS stS ["a", "04.flac"]) (jsBasename ["a", "04.flac"])
        = none ∧
      getSiblings cfgS stS ["a", "04.flac"] = [["a", "02.flac"]] ∧
      getSiblings cfgS stS ["a", "04.flac"] ≠ [] := by decide

/-- C1 amended: when `basename(path)` occurs at index `i` of the sorted,
filter-matching listing of the source parent directory, `getSiblings`
returns the consecutive slice of at most `preloadSiblings + 1` entries
starting there (truncated without error at the end of the listing), with
`path` itself at position 0; when it is absent, the result is empty
whenever the listing is empty or longer than `preloadSiblings`, and
otherwise is the single last entry of the listing (the `slice(-1, ...)`
artefact). -/
theorem getSiblings_spec (cfg : Config) (st : CState) (path : VPath) :
    (∀ i, listIndexOf (siblingListing cfg st path) (jsBasename path) = some i →
      getSiblings cfg st path =
        (((siblingListing cfg st path).drop i).take (cfg.preloadSiblings + 1)).map
          (fun f => path.dropLast ++ [f]) ∧
      (path ≠ [] → (getSiblings cfg st path).head? = some path)) ∧
    (listIndexOf (siblingListing cfg st path) (jsBasename path) = none →
      getSiblings cfg st path =
        if (siblingListing cfg st path).length ≤ cfg.preloadSiblings then
          ((siblingListing cfg st path).drop ((siblingListing cfg st path).length - 1)).map
            (fun f => path.dropLast ++ [f])
        else []) := by
  constructor
  · intro i hfound
    have hlt := listIndexOf_lt_length hfound
    have hmain : getSiblings cfg st path =
        (((siblingListing cfg st path).drop i).take (cfg.preloadSiblings + 1)).map
          (fun f => path.dropLast ++ [f]) := by
      unfold getSiblings
      dsimp only
      rw [hfound]
      dsimp only
      rw [jsSlice_found _ _ _ hlt]
    refine ⟨hmain, ?_⟩
    intro hne
    rw [hmain]
    obtain ⟨t, ht⟩ := listIndexOf_drop hfound
    rw [ht]
    simp only [List.take_succ_cons, List.map_cons, List.head?_cons]
    rw [dropLast_append_basename path hne]
  · intro hnone
    unfold getSiblings
    dsimp only
    rw [hnone]
    dsimp only
    have hstop : (-1 : Int) + (cfg.preloadSiblings : Int) + 1 = (cfg.preloadSiblings : Int) := by
      omega
    rw [hstop, jsSlice_neg_one]
    by_cases hle : (siblingListing cfg st path).length ≤ cfg.preloadSiblings
    · rw [if_pos hle, if_pos hle]
    · rw [if_neg hle, if_neg hle]
      rfl

/-- C1 witness: for the present path `/a/01.flac` (index 0) the slice
holds the path itself first and then its successor. -/
theorem getSiblings_spec_witness :
    listIndexOf (siblingListing cfgS stS ["a", "01.flac"]) (jsBasename ["a", "01.flac"])
        = some 0 ∧
      (getSiblings cfgS stS ["a", "01.flac"] =
          (((siblingListing cfgS stS ["a", "01.flac"]).drop 0).take
            (cfgS.preloadSiblings + 1)).map
            (fun f => (["a", "01.flac"] : VPath).dropLast ++ [f]) ∧
        ((["a", "01.flac"] : VPath) ≠ [] →
          (getSiblings cfgS stS ["a", "01.flac"]).head? = some ["a", "01.flac"])) :=
  ⟨by decide, (getSiblings_spec cfgS stS ["a", "01.flac"]).1 0 (by decide)⟩

/-! ### C7: the cleaner evicts exactly the stale, unignored files -/

/-- Well-formedness of the cache tree: every proper ancestor directory of a
cache file exists (as `mkdirs` guarantees after every copy). -/
def dirsClosed (files : List (VPath × Stats)) (dirs : List VPath) : Prop :=
  ∀ e ∈ files, ∀ k, k < e.1.length → 0 < k → e.1.take k ∈ dirs

/-- Well-formedness of the directory set itself: closed under proper
ancestors. -/
def ancClosed (dirs : List VPath) : Prop :=
  ∀ d ∈ dirs, ∀ k, k < d.length → 0 < k → d.take k ∈ dirs

instance (files : List (VPath × Stats)) (dirs : List VPath) :
    Decidable (dirsClosed files dirs) := by
  unfold dirsClosed
  infer_instance

instance (dirs : List VPath) : Decidable (ancClosed dirs) := by
  unfold ancClosed
  infer_instance

theorem take_dropLast {α : Type} (l : List α) (k : Nat) (h : k + 1 ≤ l.length) :
    (l.take (k + 1)).dropLast = l.take k := by
  rw [List.dropLast_eq_take, List.length_take]
  rw [Nat.min_eq_left h]
  rw [List.take_take]
  congr 1
  omega

theorem hasChild_false_parts {cacheFs : List (VPath × Stats)} {dirs : List VPath} {d : VPath}
    (h : hasChild cacheFs dirs d = false) :
    (∀ e ∈ cacheFs, e.1 ≠ [] → e.1.dropLast ≠ d) ∧
      (∀ d2 ∈ dirs, d2 ≠ [] → d2.dropLast ≠ d) := by
  simp only [hasChild, Bool.or_eq_false_iff, List.any_eq_false] at h
  refine ⟨fun e he hne hd => h.1 e he ?_, fun d2 hd2 hne hd => h.2 d2 hd2 ?_⟩
  · simp [hd, hne]
  · simp [hd, hne]

theorem mapDelete_eq_filter {κ ν : Type} [DecidableEq κ] (m : List (κ × ν)) (k : κ) :
    mapDelete m k = m.filter fun e => decide (e.1 ≠ k) := by
  induction m with
  | nil => rfl
  | cons e rest ih =>
      by_cases hk : e.1 = k
      · simp [mapDelete, hk, List.filter_cons, ih]
      · simp [mapDelete, hk, List.filter_cons, ih]

theorem deleteKeys_eq_filter (fs : List (VPath × Stats)) (ks : List VPath) :
    ks.foldl mapDelete fs = fs.filter fun e => decide (e.1 ∉ ks) := by
  induction ks generalizing fs with
  | nil => simp
  | cons k ks ih =>
      simp only [List.foldl_cons]
      rw [ih, mapDelete_eq_filter, List.filter_filter]
      apply List.filter_congr
      intro e _
      simp only [Bool.and_eq_true, decide_eq_true_eq, List.mem_cons, not_or]
      by_cases h1 : e.1 = k <;> by_cases h2 : e.1 ∈ ks <;> simp [h1, h2]

theorem mem_key_get {fs : List (VPath × Stats)} {e : VPath × Stats} (he : e ∈ fs) :
    ∃ s, mapGet fs e.1 = some s := by
  induction fs with
  | nil => simp at he
  | cons e0 rest ih =>
      by_cases hk : e0.1 = e.1
      · exact ⟨e0.2, by simp [mapGet, hk]⟩
      · rcases List.mem_cons.mp he with h | h
        · exact absurd (congrArg Prod.fst h.symm) hk
        · obtain ⟨s, hs⟩ := ih h
          exact ⟨s, by simp [mapGet, hk, hs]⟩

theorem rmdirsAux_ok (cacheFs : List (VPath × Stats)) :
    ∀ (fuel : Nat) (dirs : List VPath) (d : VPath), d.length ≤ fuel →
      ancClosed dirs → dirsClosed cacheFs dirs → (d = [] ∨ d ∈ dirs) →
      (rmdirsAux cacheFs dirs fuel d).2 = none ∧
        ancClosed (rmdirsAux cacheFs dirs fuel d).1 ∧
        dirsClosed cacheFs (rmdirsAux cacheFs dirs fuel d).1 ∧
        (∀ x ∈ (rmdirsAux cacheFs dirs fuel d).1, x ∈ dirs) := by
  intro fuel
  induction fuel with
  | zero =>
      intro dirs d hlen hanc hdc hd
      cases d with
      | nil => exact ⟨rfl, hanc, hdc, fun x hx => hx⟩
      | cons x xs => simp at hlen
  | succ f ih =>
      intro dirs d hlen hanc hdc hd
      cases d with
      | nil => exact ⟨rfl, hanc, hdc, fun x hx => hx⟩
      | cons x xs =>
          rcases hd with hd | hd
          · exact absurd hd (by simp)
          have hstep : rmdirsAux cacheFs dirs (f + 1) (x :: xs) =
              if (x :: xs) ∈ dirs then
                if hasChild cacheFs dirs (x :: xs) then (dirs, none)
                else rmdirsAux cacheFs (dirs.filter fun d2 => decide (d2 ≠ x :: xs)) f
                  (x :: xs).dropLast
              else (dirs, some (.ioError (x :: xs))) := rfl
          rw [hstep, if_pos hd]
          by_cases hch : hasChild cacheFs dirs (x :: xs) = true
          · rw [if_pos hch]
            exact ⟨rfl, hanc, hdc, fun y hy => hy⟩
          · rw [if_neg hch]
            have hch' : hasChild cacheFs dirs (x :: xs) = false := by simpa using hch
            obtain ⟨hnf, hnd⟩ := hasChild_false_parts hch'
            have hmem2 : ∀ y, y ∈ (dirs.filter fun d2 => decide (d2 ≠ x :: xs)) ↔
                (y ∈ dirs ∧ y ≠ x :: xs) := by
              intro y
              simp [List.mem_filter]
            have hanc2 : ancClosed (dirs.filter fun d2 => decide (d2 ≠ x :: xs)) := by
              intro d2 hd2' k hk hk0
              obtain ⟨hd2d, hd2ne⟩ := (hmem2 d2).mp hd2'
              have ha := hanc d2 hd2d k hk hk0
              refine (hmem2 _).mpr ⟨ha, ?_⟩
              intro heq
              have hk1 : k + 1 ≤ d2.length := by omega
              have hc_mem : d2.take (k + 1) ∈ dirs := by
                by_cases hEq : k + 1 = d2.length
                · rw [hEq, List.take_length]
                  exact hd2d
                · exact hanc d2 hd2d (k + 1) (by omega) (by omega)
              have hcd : (d2.take (k + 1)).dropLast = x :: xs := by
                rw [take_dropLast d2 k hk1, heq]
              have hcne : d2.take (k + 1) ≠ [] := by
                have hl : (d2.take (k + 1)).length = k + 1 := by
                  rw [List.length_take]
                  omega
                intro hnil
                rw [hnil] at hl
                simp at hl
              exact hnd (d2.take (k + 1)) hc_mem hcne hcd
            have hdc2 : dirsClosed cacheFs (dirs.filter fun d2 => decide (d2 ≠ x :: xs)) := by
              intro e he k hk hk0
              have ha := hdc e he k hk hk0
              refine (hmem2 _).mpr ⟨ha, ?_⟩
              intro heq
              have hk1 : k + 1 ≤ e.1.length := by omega
              by_cases hEq : k + 1 = e.1.length
              · have hk2 : e.1.length - 1 = k := by omega
                have hfd : e.1.dropLast = x :: xs := by
                  rw [List.dropLast_eq_take, hk2, heq]
                have hfne : e.1 ≠ [] := by
                  intro hnil
                  rw [hnil] at hk
                  simp at hk
                exact hnf e he hfne hfd
              · have hc_mem : e.1.take (k + 1) ∈ dirs := hdc e he (k + 1) (by omega) (by omega)
                have hcd : (e.1.take (k + 1)).dropLast = x :: xs := by
                  rw [take_dropLast e.1 k hk1, heq]
                have hcne : e.1.take (k + 1) ≠ [] := by
                  have hl : (e.1.take (k + 1)).length = k + 1 := by
                    rw [List.length_take]
                    omega
                  intro hnil
                  rw [hnil] at hl
                  simp at hl
                exact hnd _ hc_mem hcne hcd
            have hd2 : (x :: xs).dropLast = [] ∨
                (x :: xs).dropLast ∈ (dirs.filter fun d2 => decide (d2 ≠ x :: xs)) := by
              by_cases hxs : xs = []
              · subst hxs
                left
                rfl
              · right
                have hxl : 0 < xs.length := List.length_pos.mpr hxs
                have hlen1 : 0 < (x :: xs).length - 1 := by
                  simpa [List.length_cons] using hxl
                have hmem : (x :: xs).take ((x :: xs).length - 1) ∈ dirs := by
                  refine hanc _ hd _ ?_ hlen1
                  simp [List.length_cons]
                have hdl : (x :: xs).dropLast = (x :: xs).take ((x :: xs).length - 1) :=
                  List.dropLast_eq_take _
                refine (hmem2 _).mpr ⟨by rw [hdl]; exact hmem, ?_⟩
                intro heq
                have hle := congrArg List.length heq
                simp [List.length_dropLast] at hle
            have hlen2 : (x :: xs).dropLast.length ≤ f := by
              simp only [List.length_cons] at hlen
              simp [List.length_dropLast]
              omega
            obtain ⟨r1, r2, r3, r4⟩ := ih (dirs.filter fun d2 => decide (d2 ≠ x :: xs))
              (x :: xs).dropLast hlen2 hanc2 hdc2 hd2
            exact ⟨r1, r2, r3, fun y hy => ((hmem2 y).mp (r4 y hy)).1⟩

theorem uncacheFile_clean_step (cfg : Config) (st : CState) (p : VPath) (s : Stats)
    (hp : mapGet st.cacheFs p = some s)
    (hanc : ancClosed st.cacheDirs) (hdc : dirsClosed st.cacheFs st.cacheDirs) :
    (uncacheFile cfg st p).2 = none ∧
      (uncacheFile cfg st p).1.cacheFs = mapDelete st.cacheFs p ∧
      (uncacheFile cfg st p).1.sourceFs = st.sourceFs ∧
      ancClosed (uncacheFile cfg st p).1.cacheDirs ∧
      dirsClosed (uncacheFile cfg st p).1.cacheFs (uncacheFile cfg st p).1.cacheDirs := by
  have hfr := locate_frame cfg st p
  rcases hl : locate cfg st p with ⟨st1, r⟩
  rw [hl] at hfr
  obtain ⟨hfr1, hfr2, hfr3, hfr4⟩ := hfr
  simp only at hfr1 hfr2 hfr3 hfr4
  have hok : ∃ rcd, r = Except.ok rcd := by
    unfold locate at hl
    cases hmru : mapGet st.mruFiles p with
    | some rcd =>
        rw [hmru] at hl
        exact ⟨rcd, ((Prod.mk.injEq _ _ _ _).mp hl).2.symm⟩
    | none =>
        rw [hmru, hp] at hl
        exact ⟨_, ((Prod.mk.injEq _ _ _ _).mp hl).2.symm⟩
  obtain ⟨rcd, hrok⟩ := hok
  subst hrok
  have hmid : uncacheMid cfg st p =
      ({ st1 with mruFiles := mapUpdate st1.mruFiles p fun r =>
          { r with cached := false, fullpath := ⟨.source, p⟩ } }, .ok ()) := by
    unfold uncacheMid
    rw [hl]
  rcases hrm : rmdirs (mapDelete st1.cacheFs p) st1.cacheDirs p.dropLast with ⟨dirs2, e2⟩
  have hun : uncacheFile cfg st p =
      ({ st1 with
          mruFiles := mapUpdate st1.mruFiles p fun r =>
            { r with cached := false, fullpath := ⟨.source, p⟩ },
          cacheFs := mapDelete st1.cacheFs p,
          cacheDirs := dirs2 }, e2) := by
    unfold uncacheFile
    rw [hmid]
    dsimp only
    rw [hrm]
  have hdc0 : dirsClosed (mapDelete st.cacheFs p) st.cacheDirs :=
    fun e he k hk hk0 => hdc e (mem_mapDelete he) k hk hk0
  have hd0 : p.dropLast = [] ∨ p.dropLast ∈ st.cacheDirs := by
    have hpm := mapGet_mem hp
    by_cases hlp : p.length ≤ 1
    · left
      cases p with
      | nil => rfl
      | cons a t =>
          cases t with
          | nil => rfl
          | cons b u => simp [List.length_cons] at hlp
    · right
      have h1 : 0 < p.length - 1 := by omega
      have h2 : p.length - 1 < p.length := by omega
      have h3 := hdc (p, s) hpm (p.length - 1) h2 h1
      rw [List.dropLast_eq_take]
      exact h3
  have hr := rmdirsAux_ok (mapDelete st.cacheFs p) p.dropLast.length st.cacheDirs
    p.dropLast (le_refl _) hanc hdc0 hd0
  rw [hfr2, hfr3] at hrm
  unfold rmdirs at hrm
  rw [hrm] at hr
  refine ⟨?_, ?_, ?_, ?_, ?_⟩
  · rw [hun]
    exact hr.1
  · rw [hun]
    dsimp only
    rw [hfr2]
  · rw [hun]
    dsimp only
    exact hfr1
  · rw [hun]
    dsimp only
    exact hr.2.1
  · rw [hun]
    dsimp only
    rw [hfr2]
    exact hr.2.2.1

theorem cleanLoop_spec (cfg : Config) (ign : String → Bool) (after : Nat) (now : Int) :
    ∀ (entries : List (VPath × Stats)) (st : CState),
      ancClosed st.cacheDirs → dirsClosed st.cacheFs st.cacheDirs →
      (∀ e ∈ entries, ∃ s, mapGet st.cacheFs e.1 = some s) →
      (entries.map (·.1)).Nodup →
      (cleanLoop cfg ign after now entries st).2.2 = none ∧
        (cleanLoop cfg ign after now entries st).2.1 =
          (entries.filter (cleanEvicts ign after now)).map (fun e => Event.uncache e.1) ∧
        (cleanLoop cfg ign after now entries st).1.cacheFs =
          ((entries.filter (cleanEvicts ign after now)).map (·.1)).foldl mapDelete st.cacheFs ∧
        (cleanLoop cfg ign after now entries st).1.mruFiles = [] ∧
        (cleanLoop cfg ign after now entries st).1.sourceFs = st.sourceFs := by
  intro entries
  induction entries with
  | nil =>
      intro st hanc hdc hmem hnd
      simp [cleanLoop]
  | cons e rest ih =>
      intro st hanc hdc hmem hnd
      have hnd' : (e.1 :: rest.map fun x => x.1).Nodup := by
        simpa only [List.map_cons] using hnd
      have hnd2 := List.nodup_cons.mp hnd'
      unfold cleanLoop
      by_cases hev : cleanEvicts ign after now e = true
      · rw [if_pos hev]
        obtain ⟨s, hs⟩ := hmem e (by simp : e ∈ e :: rest)
        have hstep := uncacheFile_clean_step cfg st e.1 s hs hanc hdc
        rcases hu : uncacheFile cfg st e.1 with ⟨st1, eu⟩
        rw [hu] at hstep
        obtain ⟨he1, he2, he3, he4, he5⟩ := hstep
        simp only at he1 he2 he3 he4 he5
        subst he1
        have hmem1 : ∀ q ∈ rest, ∃ s2, mapGet st1.cacheFs q.1 = some s2 := by
          intro q hq
          obtain ⟨s2, hs2⟩ := hmem q (List.mem_cons_of_mem _ hq)
          refine ⟨s2, ?_⟩
          rw [he2, mapGet_delete_ne]
          · exact hs2
          · intro heq
            exact hnd2.1 (heq ▸ List.mem_map_of_mem (fun x => x.1) hq)
        obtain ⟨r1, r2, r3, r4, r5⟩ := ih st1 he4 he5 hmem1 hnd2.2
        rcases hc : cleanLoop cfg ign after now rest st1 with ⟨st2, evs2, e2⟩
        rw [hc] at r1 r2 r3 r4 r5
        simp only at r1 r2 r3 r4 r5
        dsimp only
        rw [hc]
        dsimp only
        rw [List.filter_cons_of_pos hev]
        refine ⟨r1, ?_, ?_, r4, by rw [r5, he3]⟩
        · simp only [List.map_cons]
          rw [r2]
        · simp only [List.map_cons, List.foldl_cons]
          rw [r3, he2]
      · rw [if_neg hev]
        have hmem1 : ∀ q ∈ rest, ∃ s2, mapGet st.cacheFs q.1 = some s2 :=
          fun q hq => hmem q (List.mem_cons_of_mem _ hq)
        obtain ⟨r1, r2, r3, r4, r5⟩ := ih st hanc hdc hmem1 hnd2.2
        rw [List.filter_cons_of_neg (by simpa using hev)]
        exact ⟨r1, r2, r3, r4, r5⟩

theorem key_mem_filter_iff {fs : List (VPath × Stats)} (p : (VPath × Stats) → Bool)
    (hnd : (fs.map (fun x => x.1)).Nodup) {e : VPath × Stats} (he : e ∈ fs) :
    (e.1 ∈ (fs.filter p).map (fun x => x.1)) ↔ p e = true := by
  constructor
  · intro hm
    obtain ⟨e', he', hkey⟩ := List.mem_map.mp hm
    obtain ⟨he'f, hpe'⟩ := List.mem_filter.mp he'
    have heq : e' = e := List.inj_on_of_nodup_map hnd he'f he hkey
    rw [← heq]
    exact hpe'
  · intro hp
    exact List.mem_map_of_mem _ (List.mem_filter.mpr ⟨he, hp⟩)

/-- C7: a `clean(cleanIgnore, cleanAfter)` run over a well-formed cache
tree finishes without error, evicts exactly the regular files whose
basename fails `cleanIgnore` and whose atime is strictly older than
`now − cleanAfter` seconds, emits exactly one `uncache` event per evicted
file in walk order, and leaves the MRU empty. -/
theorem clean_spec (cfg : Config) (st : CState) (ign : String → Bool) (after : Nat)
    (now : Int) (hnd : (st.cacheFs.map (fun x => x.1)).Nodup)
    (hanc : ancClosed st.cacheDirs) (hdc : dirsClosed st.cacheFs st.cacheDirs) :
    (clean cfg st ign after now).2.2 = none ∧
      (clean cfg st ign after now).2.1 =
        (st.cacheFs.filter (cleanEvicts ign after now)).map (fun e => Event.uncache e.1) ∧
      (clean cfg st ign after now).1.cacheFs =
        st.cacheFs.filter (fun e => !(cleanEvicts ign after now e)) ∧
      (clean cfg st ign after now).1.mruFiles = [] := by
  have hmem : ∀ e ∈ st.cacheFs, ∃ s, mapGet st.cacheFs e.1 = some s :=
    fun e he => mem_key_get he
  obtain ⟨r1, r2, r3, r4, r5⟩ := cleanLoop_spec cfg ign after now st.cacheFs st hanc hdc hmem hnd
  refine ⟨r1, r2, ?_, r4⟩
  have hfold : (clean cfg st ign after now).1.cacheFs =
      ((st.cacheFs.filter (cleanEvicts ign after now)).map (fun x => x.1)).foldl
        mapDelete st.cacheFs := r3
  rw [hfold, deleteKeys_eq_filter]
  apply List.filter_congr
  intro e he
  have hiff := key_mem_filter_iff (cleanEvicts ign after now) hnd he
  cases hB : cleanEvicts ign after now e with
  | true =>
      have hin := hiff.mpr hB
      simp [hin]
  | false =>
      have hout : e.1 ∉ (st.cacheFs.filter (cleanEvicts ign after now)).map
          (fun x => x.1) := by
        intro hm
        rw [hiff.mp hm] at hB
        exact Bool.noConfusion hB
      simp [hout]

/-- Concrete state for the C7 witness: both files stale, one protected by
the ignore filter, a leftover MRU entry to be cleared. -/
def stW : CState :=
  ⟨[(["a", "01.flac"], ⟨10, 0, 0⟩), (["a", "02.flac"], ⟨10, 0, 0⟩)],
    [(["a", "01.flac"], ⟨10, 0, 0⟩), (["a", "02.flac"], ⟨10, 0, 0⟩)], [["a"]],
    [(["a", "01.flac"], ⟨["a", "01.flac"], ⟨.cache, ["a", "01.flac"]⟩, true, true, ⟨10, 0, 0⟩⟩)],
    []⟩

/-- C7 witness: cleaning `stW` with an ignore filter protecting `01.flac`
evicts exactly `/a/02.flac` and clears the MRU. -/
theorem clean_spec_witness :
    (stW.cacheFs.map (fun x => x.1)).Nodup ∧
      ancClosed stW.cacheDirs ∧
      dirsClosed stW.cacheFs stW.cacheDirs ∧
      ((clean cfgR stW (fun s => s == "01.flac") 60 1000000).2.2 = none ∧
        (clean cfgR stW (fun s => s == "01.flac") 60 1000000).2.1 =
          (stW.cacheFs.filter (cleanEvicts (fun s => s == "01.flac") 60 1000000)).map
            (fun e => Event.uncache e.1) ∧
        (clean cfgR stW (fun s => s == "01.flac") 60 1000000).1.cacheFs =
          stW.cacheFs.filter (fun e => !(cleanEvicts (fun s => s == "01.flac") 60 1000000 e)) ∧
        (clean cfgR stW (fun s => s == "01.flac") 60 1000000).1.mruFiles = []) :=
  ⟨by decide, by decide, by decide,
    clean_spec cfgR stW (fun s => s == "01.flac") 60 1000000 (by decide) (by decide) (by decide)⟩
